import Mathlib

/-!
Verification of the NeuralSearch indexing-and-retrieval pipeline.

Shallow embedding of the core of the repository:
- `src/chunking.py`: `chunk_text`, `create_chunks_with_metadata`
- `src/vector_index.py`: `build_index`
- `src/search.py`: `search`, `highlight_keywords`
- `src/storage.py`: persisted index/metadata pair (modelled as a record of
  two optional files)

External collaborators (the sentence-transformers embedding model, the FAISS
flat inner-product index, Python's `hashlib`) are modelled by their contracts:
the embedder is an arbitrary order-preserving per-text function, the FAISS
`IndexFlatIP` is an exact inner-product top-k search over the stored vectors,
and `generate_doc_id` is an arbitrary function parameter.
-/

/-! ### Python `str.split()` and `" ".join` over Lean strings

`str.split()` with no argument splits on runs of whitespace and never
produces empty words.  The whitespace set is space, tab, newline, carriage
return, vertical tab and form feed. -/

/-- Whitespace characters recognised by Python `str.split()`. -/
def isSpaceChar (c : Char) : Bool :=
  c == ' ' || c == '\t' || c == '\n' || c == '\r' || c == '\x0b' || c == '\x0c'

/-- Accumulator-based splitter: `acc` holds the current word reversed. -/
def splitWSAux : List Char → List Char → List String
  | [], [] => []
  | [], acc => [String.mk acc.reverse]
  | c :: rest, acc =>
    if isSpaceChar c then
      match acc with
      | [] => splitWSAux rest []
      | _ :: _ => String.mk acc.reverse :: splitWSAux rest []
    else splitWSAux rest (c :: acc)

/-- Model of Python `s.split()` (no separator argument). -/
def splitWS (s : String) : List String :=
  splitWSAux s.data []

/-- Model of Python `" ".join(ws)`. -/
def joinWords : List String → String
  | [] => ""
  | [w] => w
  | w :: ws => w ++ " " ++ joinWords ws

theorem joinWords_nil : joinWords [] = "" := rfl

theorem joinWords_single (w : String) : joinWords [w] = w := rfl

theorem joinWords_cons2 (w w2 : String) (ws : List String) :
    joinWords (w :: w2 :: ws) = w ++ " " ++ joinWords (w2 :: ws) := rfl

theorem strMk_data (w : String) : String.mk w.data = w := rfl

/-- A word as produced by `splitWS`: non-empty and free of whitespace. -/
def cleanWord (w : String) : Bool :=
  !w.data.isEmpty && w.data.all (fun c => !isSpaceChar c)

theorem cleanWord_iff (w : String) :
    cleanWord w = true ↔ w.data ≠ [] ∧ ∀ c ∈ w.data, isSpaceChar c = false := by
  simp [cleanWord, List.isEmpty_iff, List.all_eq_true]

theorem splitWSAux_clean (l : List Char) :
    ∀ acc, (∀ c ∈ acc, isSpaceChar c = false) →
      ∀ w ∈ splitWSAux l acc, cleanWord w = true := by
  induction l with
  | nil =>
    intro acc hacc w hw
    cases acc with
    | nil => simp [splitWSAux] at hw
    | cons a t =>
      simp only [splitWSAux, List.mem_singleton] at hw
      subst hw
      rw [cleanWord_iff]
      refine ⟨by simp, ?_⟩
      intro c hc
      simp only [List.mem_reverse] at hc
      exact hacc c hc
  | cons c rest ih =>
    intro acc hacc w hw
    by_cases hsp : isSpaceChar c = true
    · cases acc with
      | nil =>
        simp only [splitWSAux, hsp, if_true] at hw
        exact ih [] (by simp) w hw
      | cons a t =>
        simp only [splitWSAux, hsp, if_true, List.mem_cons] at hw
        rcases hw with hw | hw
        · subst hw
          rw [cleanWord_iff]
          refine ⟨by simp, ?_⟩
          intro x hx
          simp only [List.mem_reverse] at hx
          exact hacc x hx
        · exact ih [] (by simp) w hw
    · simp only [Bool.not_eq_true] at hsp
      simp only [splitWSAux, hsp, Bool.false_eq_true, if_false] at hw
      refine ih (c :: acc) ?_ w hw
      intro x hx
      rcases List.mem_cons.mp hx with hx | hx
      · subst hx; exact hsp
      · exact hacc x hx

/-- Every word produced by `splitWS` is non-empty and whitespace-free. -/
theorem splitWS_clean (s : String) : ∀ w ∈ splitWS s, cleanWord w = true :=
  splitWSAux_clean s.data [] (by simp)

theorem splitWSAux_no_space (l : List Char) (hl : ∀ c ∈ l, isSpaceChar c = false) :
    ∀ (rest : List Char) (acc : List Char),
      splitWSAux (l ++ rest) acc = splitWSAux rest (l.reverse ++ acc) := by
  induction l with
  | nil => intro rest acc; simp
  | cons c t ih =>
    intro rest acc
    have hc : isSpaceChar c = false := hl c (by simp)
    have ht : ∀ x ∈ t, isSpaceChar x = false := fun x hx => hl x (by simp [hx])
    simp only [List.cons_append, splitWSAux, hc, Bool.false_eq_true, if_false,
      List.append_eq]
    rw [ih ht rest (c :: acc)]
    simp

theorem splitWSAux_space_cons (rest : List Char) (a : Char) (t : List Char) :
    splitWSAux (' ' :: rest) (a :: t) =
      String.mk (a :: t).reverse :: splitWSAux rest [] := by
  simp [splitWSAux, isSpaceChar]

theorem splitWSAux_nil_of_ne (acc : List Char) (h : acc ≠ []) :
    splitWSAux [] acc = [String.mk acc.reverse] := by
  cases acc with
  | nil => exact absurd rfl h
  | cons a t => rfl

/-- Round trip: joining clean words with single spaces and re-splitting
recovers the word list exactly. -/
theorem splitWS_joinWords (ws : List String)
    (h : ∀ w ∈ ws, cleanWord w = true) : splitWS (joinWords ws) = ws := by
  induction ws with
  | nil => rfl
  | cons w ws ih =>
    have hw := (cleanWord_iff w).mp (h w (by simp))
    have hws : ∀ x ∈ ws, cleanWord x = true := fun x hx => h x (by simp [hx])
    cases ws with
    | nil =>
      rw [joinWords_single]
      unfold splitWS
      have hstep := splitWSAux_no_space w.data hw.2 [] []
      simp only [List.append_nil] at hstep
      rw [hstep, splitWSAux_nil_of_ne _ (by simpa using hw.1),
        List.reverse_reverse, strMk_data]
    | cons w2 ws2 =>
      rw [joinWords_cons2]
      unfold splitWS
      rw [String.data_append, String.data_append, List.append_assoc]
      rw [splitWSAux_no_space w.data hw.2]
      have hsp : (" " : String).data ++ (joinWords (w2 :: ws2)).data =
          ' ' :: (joinWords (w2 :: ws2)).data := rfl
      rw [hsp]
      simp only [List.append_nil]
      cases hacc : w.data.reverse with
      | nil => exact absurd (by simpa using hacc) hw.1
      | cons b u =>
        rw [splitWSAux_space_cons, ← hacc, List.reverse_reverse, strMk_data]
        have ihx : splitWSAux (joinWords (w2 :: ws2)).data [] = w2 :: ws2 := ih hws
        rw [ihx]

/-! ### Data model: pages, passages, and the chunker (src/chunking.py) -/

/-- Chunking configuration from `src/chunking.py`: `CHUNK_SIZE_WORDS = 300`. -/
def CHUNK_SIZE_WORDS : Nat := 300

/-- Chunking configuration from `src/chunking.py`: `CHUNK_OVERLAP_WORDS = 50`. -/
def CHUNK_OVERLAP_WORDS : Nat := 50

/-- A page as produced by `extract_text_by_page` (src/pdf_ingest.py):
a dict `{"page_num": int, "text": str}`. -/
structure Page where
  page_num : Nat
  text : String
deriving DecidableEq, Repr, Inhabited

/-- A chunk-metadata record as produced by `create_chunks_with_metadata`. -/
structure Passage where
  doc_id : String
  file_name : String
  chunk_id : String
  page_start : Nat
  page_end : Nat
  text : String
deriving DecidableEq, Repr, Inhabited

/-- One entry of `combined_parts` in `create_chunks_with_metadata`:
a dict `{"word": str, "page": int}`.  (Named `WordPart` because `Part`
is taken by Mathlib.) -/
structure WordPart where
  word : String
  page : Nat
deriving DecidableEq, Repr, Inhabited

/-- The `combined_parts` list: all pages flattened into (word, page) pairs,
page order and intra-page word order preserved. -/
def flattenPages (doc_pages : List Page) : List WordPart :=
  doc_pages.flatMap (fun p => (splitWS p.text).map (fun w => ⟨w, p.page_num⟩))

/-- Model of Python `sorted(set(l))` over naturals. -/
def sortedDedup (l : List Nat) : List Nat :=
  l.dedup.mergeSort (fun a b => decide (a ≤ b))

/-- The slice `combined_parts[start_idx:end_idx]` with
`end_idx = min(start_idx + CHUNK_SIZE_WORDS, len(combined_parts))`. -/
def windowSlice (parts : List WordPart) (startIdx : Nat) : List WordPart :=
  (parts.drop startIdx).take (min (startIdx + CHUNK_SIZE_WORDS) parts.length - startIdx)

/-- Loop body of `create_chunks_with_metadata`: the chunk dict appended for
the window starting at `startIdx`.  `pages_in_chunk = sorted(set(...))`;
`pages_in_chunk[0]` is its head and `pages_in_chunk[-1]` its last element. -/
def mkChunk (docId filename : String) (parts : List WordPart)
    (startIdx counter : Nat) : Passage :=
  let chunkParts := windowSlice parts startIdx
  let pagesInChunk := sortedDedup (chunkParts.map WordPart.page)
  { doc_id := docId
    file_name := filename
    chunk_id := docId ++ "_" ++ toString counter
    page_start := pagesInChunk.headI
    page_end := pagesInChunk.getLastI
    text := joinWords (chunkParts.map WordPart.word) }

/-- The `while start_idx < len(combined_parts)` loop of
`create_chunks_with_metadata`.  The trailing
`if start_idx >= len(combined_parts): break` coincides with the loop guard,
so the loop is a plain recursion advancing by
`CHUNK_SIZE_WORDS - CHUNK_OVERLAP_WORDS`. -/
def chunkLoop (docId filename : String) (parts : List WordPart)
    (startIdx counter : Nat) : List Passage :=
  if startIdx < parts.length then
    mkChunk docId filename parts startIdx counter ::
      chunkLoop docId filename parts
        (startIdx + (CHUNK_SIZE_WORDS - CHUNK_OVERLAP_WORDS)) (counter + 1)
  else []
termination_by parts.length - startIdx
decreasing_by simp only [CHUNK_SIZE_WORDS, CHUNK_OVERLAP_WORDS]; omega

/-- `create_chunks_with_metadata(doc_pages, filename)` from `src/chunking.py`.
`generate_doc_id` (an md5 of the filename in the source) is an external hash,
passed in as a function parameter. -/
def create_chunks_with_metadata (doc_pages : List Page) (filename : String)
    (generate_doc_id : String → String) : List Passage :=
  let doc_id := generate_doc_id filename
  let combined_parts := flattenPages doc_pages
  if combined_parts.isEmpty then []
  else chunkLoop doc_id filename combined_parts 0 0

/-- Loop of `chunk_text` (the metadata-free chunker), at the default
parameters `chunk_size = CHUNK_SIZE_WORDS`, `overlap = CHUNK_OVERLAP_WORDS`:
`words[start:start + chunk_size]` joined by spaces, advancing by
`chunk_size - overlap`. -/
def chunkTextLoop (words : List String) (start : Nat) : List String :=
  if start < words.length then
    joinWords ((words.drop start).take CHUNK_SIZE_WORDS) ::
      chunkTextLoop words (start + (CHUNK_SIZE_WORDS - CHUNK_OVERLAP_WORDS))
  else []
termination_by words.length - start
decreasing_by simp only [CHUNK_SIZE_WORDS, CHUNK_OVERLAP_WORDS]; omega

/-- `chunk_text(text)` from `src/chunking.py` at its default parameters;
the generator is modelled as the list of chunks it yields. -/
def chunk_text (text : String) : List String :=
  let words := splitWS text
  if words.length ≤ CHUNK_SIZE_WORDS then [text]
  else chunkTextLoop words 0

/-- Minimum of a list of naturals (0 for the empty list); used to state
what "the document's full page range" means. -/
def listMin : List Nat → Nat
  | [] => 0
  | a :: t => t.foldl min a

/-- Maximum of a list of naturals (0 for the empty list). -/
def listMax : List Nat → Nat
  | [] => 0
  | a :: t => t.foldl max a

/-! ### Facts about `listMin`, `listMax` and `sortedDedup` -/

theorem foldl_min_mem : ∀ (t : List Nat) (a : Nat), t.foldl min a ∈ a :: t := by
  intro t
  induction t with
  | nil => intro a; simp
  | cons b u ih =>
    intro a
    have h1 := ih (min a b)
    have hfold : (b :: u).foldl min a = u.foldl min (min a b) := rfl
    rw [hfold]
    rcases List.mem_cons.mp h1 with h | h
    · rw [h]
      rcases min_choice a b with hm | hm <;> rw [hm] <;> simp
    · simp [h]

theorem foldl_min_le : ∀ (t : List Nat) (a x : Nat), x ∈ a :: t → t.foldl min a ≤ x := by
  intro t
  induction t with
  | nil =>
    intro a x hx
    simp at hx
    simp [hx]
  | cons b u ih =>
    intro a x hx
    rcases List.mem_cons.mp hx with h | h
    · subst h
      calc u.foldl min (min x b) ≤ min x b :=
            ih (min x b) (min x b) (by simp)
        _ ≤ x := min_le_left x b
    · rcases List.mem_cons.mp h with h2 | h2
      · subst h2
        calc u.foldl min (min a x) ≤ min a x :=
              ih (min a x) (min a x) (by simp)
          _ ≤ x := min_le_right a x
      · exact ih (min a b) x (by simp [h2])

theorem foldl_max_mem : ∀ (t : List Nat) (a : Nat), t.foldl max a ∈ a :: t := by
  intro t
  induction t with
  | nil => intro a; simp
  | cons b u ih =>
    intro a
    have h1 := ih (max a b)
    have hfold : (b :: u).foldl max a = u.foldl max (max a b) := rfl
    rw [hfold]
    rcases List.mem_cons.mp h1 with h | h
    · rw [h]
      rcases max_choice a b with hm | hm <;> rw [hm] <;> simp
    · simp [h]

theorem le_foldl_max : ∀ (t : List Nat) (a x : Nat), x ∈ a :: t → x ≤ t.foldl max a := by
  intro t
  induction t with
  | nil =>
    intro a x hx
    simp at hx
    simp [hx]
  | cons b u ih =>
    intro a x hx
    rcases List.mem_cons.mp hx with h | h
    · subst h
      calc x ≤ max x b := le_max_left x b
        _ ≤ u.foldl max (max x b) := ih (max x b) (max x b) (by simp)
    · rcases List.mem_cons.mp h with h2 | h2
      · subst h2
        calc x ≤ max a x := le_max_right a x
          _ ≤ u.foldl max (max a x) := ih (max a x) (max a x) (by simp)
      · exact ih (max a b) x (by simp [h2])

theorem listMin_mem (l : List Nat) (h : l ≠ []) : listMin l ∈ l := by
  cases l with
  | nil => exact absurd rfl h
  | cons a t => exact foldl_min_mem t a

theorem listMin_le (l : List Nat) (x : Nat) (hx : x ∈ l) : listMin l ≤ x := by
  cases l with
  | nil => simp at hx
  | cons a t => exact foldl_min_le t a x hx

theorem listMax_mem (l : List Nat) (h : l ≠ []) : listMax l ∈ l := by
  cases l with
  | nil => exact absurd rfl h
  | cons a t => exact foldl_max_mem t a

theorem le_listMax (l : List Nat) (x : Nat) (hx : x ∈ l) : x ≤ listMax l := by
  cases l with
  | nil => simp at hx
  | cons a t => exact le_foldl_max t a x hx

theorem listMin_eq_of (l : List Nat) (m : Nat) (hm : m ∈ l)
    (hle : ∀ x ∈ l, m ≤ x) : listMin l = m := by
  have h1 : listMin l ≤ m := listMin_le l m hm
  have h2 : m ≤ listMin l := hle _ (listMin_mem l (by rintro rfl; simp at hm))
  omega

theorem listMax_eq_of (l : List Nat) (m : Nat) (hm : m ∈ l)
    (hle : ∀ x ∈ l, x ≤ m) : listMax l = m := by
  have h1 : m ≤ listMax l := le_listMax l m hm
  have h2 : listMax l ≤ m := hle _ (listMax_mem l (by rintro rfl; simp at hm))
  omega

theorem sortedDedup_mem (l : List Nat) (x : Nat) : x ∈ sortedDedup l ↔ x ∈ l := by
  unfold sortedDedup
  rw [List.mem_mergeSort, List.mem_dedup]

theorem sortedDedup_ne_nil (l : List Nat) (h : l ≠ []) : sortedDedup l ≠ [] := by
  intro hnil
  rcases List.exists_mem_of_ne_nil l h with ⟨x, hx⟩
  have := (sortedDedup_mem l x).mpr hx
  rw [hnil] at this
  simp at this

theorem sortedDedup_pairwise (l : List Nat) :
    List.Pairwise (fun a b => a ≤ b) (sortedDedup l) := by
  have h := @List.sorted_mergeSort Nat (fun a b => decide (a ≤ b))
    (fun a b c hab hbc => by simp_all; omega)
    (fun a b => by simp [Nat.le_total]) l.dedup
  exact h.imp (fun hab => by simpa using hab)

theorem sortedDedup_headI_eq_listMin (l : List Nat) (h : l ≠ []) :
    (sortedDedup l).headI = listMin l := by
  cases hsd : sortedDedup l with
  | nil => exact absurd hsd (sortedDedup_ne_nil l h)
  | cons a t =>
    have hpw := sortedDedup_pairwise l
    rw [hsd] at hpw
    have hmem : a ∈ l := (sortedDedup_mem l a).mp (by rw [hsd]; simp)
    have hle : ∀ x ∈ l, a ≤ x := by
      intro x hx
      have hx2 : x ∈ a :: t := by rw [← hsd]; exact (sortedDedup_mem l x).mpr hx
      rcases List.mem_cons.mp hx2 with h2 | h2
      · omega
      · exact (List.pairwise_cons.mp hpw).1 x h2
    simpa [List.headI] using (listMin_eq_of l a hmem hle).symm

theorem sortedDedup_getLastI_eq_listMax (l : List Nat) (h : l ≠ []) :
    (sortedDedup l).getLastI = listMax l := by
  cases hsd : sortedDedup l with
  | nil => exact absurd hsd (sortedDedup_ne_nil l h)
  | cons a t =>
    have hpw : List.Pairwise (fun x y => x ≤ y) (a :: t) := by
      rw [← hsd]; exact sortedDedup_pairwise l
    have hne : (a :: t) ≠ ([] : List Nat) := by simp
    set m := (a :: t).getLast hne with hm
    have hlastI : (a :: t).getLastI = m := by
      rw [List.getLastI_eq_getLast?, List.getLast?_eq_getLast _ hne]
    have hmmem : m ∈ l := (sortedDedup_mem l m).mp (by rw [hsd]; exact List.getLast_mem hne)
    have hge : ∀ x ∈ l, x ≤ m := by
      intro x hx
      have hx2 : x ∈ a :: t := by rw [← hsd]; exact (sortedDedup_mem l x).mpr hx
      rcases List.mem_iff_getElem.mp hx2 with ⟨i, hi, hxi⟩
      have hmi : m = (a :: t)[(a :: t).length - 1] := List.getLast_eq_getElem _ hne
      by_cases hil : i = (a :: t).length - 1
      · subst hil
        have hmx : m = x := hmi.trans hxi
        omega
      · have hilt : i < (a :: t).length - 1 := by
          simp only [List.length_cons] at hi hil ⊢; omega
        have h2 := List.pairwise_iff_getElem.mp hpw i ((a :: t).length - 1)
          hi (by simp) hilt
        rw [hmi, ← hxi]
        exact h2
    rw [hlastI]
    exact (listMax_eq_of l m hmmem hge).symm

/-! ### Facts about `windowSlice`, `mkChunk` and `chunkLoop` -/

theorem windowSlice_length (parts : List WordPart) (s : Nat) (h : s < parts.length) :
    (windowSlice parts s).length = min (s + CHUNK_SIZE_WORDS) parts.length - s := by
  unfold windowSlice
  rw [List.length_take, List.length_drop]
  omega

theorem windowSlice_ne_nil (parts : List WordPart) (s : Nat) (h : s < parts.length) :
    windowSlice parts s ≠ [] := by
  have hl := windowSlice_length parts s h
  intro hnil
  rw [hnil] at hl
  simp only [List.length_nil, CHUNK_SIZE_WORDS] at hl
  omega

theorem windowSlice_getElem (parts : List WordPart) (s j : Nat)
    (hj : j < (windowSlice parts s).length) :
    (windowSlice parts s).get ⟨j, hj⟩ = parts.get ⟨s + j,
      by unfold windowSlice at hj; simp only [List.length_take, List.length_drop] at hj; omega⟩ := by
  simp only [List.get_eq_getElem]
  unfold windowSlice
  rw [List.getElem_take, List.getElem_drop]

theorem windowSlice_subset (parts : List WordPart) (s : Nat) :
    ∀ x ∈ windowSlice parts s, x ∈ parts := by
  intro x hx
  unfold windowSlice at hx
  exact List.mem_of_mem_drop (List.mem_of_mem_take hx)

theorem windowSlice_full (parts : List WordPart)
    (h : parts.length ≤ CHUNK_SIZE_WORDS) : windowSlice parts 0 = parts := by
  unfold windowSlice
  have hm : min (0 + CHUNK_SIZE_WORDS) parts.length - 0 = parts.length := by omega
  rw [hm, List.drop_zero, List.take_length]

theorem chunkLoop_pos (docId filename : String) (parts : List WordPart)
    (s c : Nat) (h : s < parts.length) :
    chunkLoop docId filename parts s c =
      mkChunk docId filename parts s c ::
        chunkLoop docId filename parts
          (s + (CHUNK_SIZE_WORDS - CHUNK_OVERLAP_WORDS)) (c + 1) := by
  rw [chunkLoop]
  simp [h]

theorem chunkLoop_neg (docId filename : String) (parts : List WordPart)
    (s c : Nat) (h : ¬ s < parts.length) :
    chunkLoop docId filename parts s c = [] := by
  rw [chunkLoop]
  simp [h]


/-- Characterization of the emitted passages: the `k`-th element of the loop
started at `s` is the chunk of the window starting at
`s + (CHUNK_SIZE_WORDS - CHUNK_OVERLAP_WORDS) * k`, which exists exactly when
that start index is in bounds. -/
theorem chunkLoop_getElem? (docId filename : String) (parts : List WordPart) :
    ∀ (s c k : Nat),
      (chunkLoop docId filename parts s c)[k]? =
        if s + (CHUNK_SIZE_WORDS - CHUNK_OVERLAP_WORDS) * k < parts.length then
          some (mkChunk docId filename parts
            (s + (CHUNK_SIZE_WORDS - CHUNK_OVERLAP_WORDS) * k) (c + k))
        else none := by
  intro s c
  induction s, c using chunkLoop.induct docId filename parts with
  | case1 s c hlt ih =>
    intro k
    rw [chunkLoop_pos docId filename parts s c hlt]
    cases k with
    | zero =>
      rw [if_pos (by simpa using hlt)]
      simp
    | succ k =>
      rw [List.getElem?_cons_succ, ih k]
      have harith : s + (CHUNK_SIZE_WORDS - CHUNK_OVERLAP_WORDS) +
          (CHUNK_SIZE_WORDS - CHUNK_OVERLAP_WORDS) * k =
          s + (CHUNK_SIZE_WORDS - CHUNK_OVERLAP_WORDS) * (k + 1) := by ring
      have hcc : c + 1 + k = c + (k + 1) := by omega
      rw [harith, hcc]
  | case2 s c hlt =>
    intro k
    rw [chunkLoop_neg docId filename parts s c hlt]
    rw [if_neg (by simp only [CHUNK_SIZE_WORDS, CHUNK_OVERLAP_WORDS]; omega)]
    simp

theorem chunkLoop_get (docId filename : String) (parts : List WordPart)
    (s c k : Nat) (hk : k < (chunkLoop docId filename parts s c).length) :
    s + (CHUNK_SIZE_WORDS - CHUNK_OVERLAP_WORDS) * k < parts.length ∧
    (chunkLoop docId filename parts s c).get ⟨k, hk⟩ =
      mkChunk docId filename parts
        (s + (CHUNK_SIZE_WORDS - CHUNK_OVERLAP_WORDS) * k) (c + k) := by
  have h1 : (chunkLoop docId filename parts s c)[k]? =
      some ((chunkLoop docId filename parts s c).get ⟨k, hk⟩) := by
    simp [List.getElem?_eq_getElem hk]
  rw [chunkLoop_getElem? docId filename parts s c k] at h1
  by_cases hcond : s + (CHUNK_SIZE_WORDS - CHUNK_OVERLAP_WORDS) * k < parts.length
  · rw [if_pos hcond] at h1
    refine ⟨hcond, ?_⟩
    injection h1 with h2
    exact h2.symm
  · rw [if_neg hcond] at h1
    exact absurd h1 (by simp)

/-! ### Facts about `flattenPages` and the fields of an emitted chunk -/

theorem flattenPages_clean (doc_pages : List Page) :
    ∀ part ∈ flattenPages doc_pages, cleanWord part.word = true := by
  intro part hp
  unfold flattenPages at hp
  rcases List.mem_flatMap.mp hp with ⟨p, hpm, hin⟩
  rcases List.mem_map.mp hin with ⟨w, hwm, hw⟩
  subst hw
  simpa using splitWS_clean p.text w hwm

theorem flattenPages_page_mem (doc_pages : List Page) :
    ∀ part ∈ flattenPages doc_pages, part.page ∈ doc_pages.map Page.page_num := by
  intro part hp
  unfold flattenPages at hp
  rcases List.mem_flatMap.mp hp with ⟨p, hpm, hin⟩
  rcases List.mem_map.mp hin with ⟨w, hwm, hw⟩
  subst hw
  simpa using List.mem_map_of_mem Page.page_num hpm

theorem flattenPages_page_iff (doc_pages : List Page)
    (h : ∀ p ∈ doc_pages, splitWS p.text ≠ []) :
    ∀ x, x ∈ (flattenPages doc_pages).map WordPart.page ↔
      x ∈ doc_pages.map Page.page_num := by
  intro x
  constructor
  · intro hx
    rcases List.mem_map.mp hx with ⟨part, hpart, hpage⟩
    rw [← hpage]
    exact flattenPages_page_mem doc_pages part hpart
  · intro hx
    rcases List.mem_map.mp hx with ⟨p, hpm, hpage⟩
    rcases List.exists_mem_of_ne_nil _ (h p hpm) with ⟨w, hwm⟩
    refine List.mem_map.mpr ⟨⟨w, p.page_num⟩, ?_, hpage⟩
    unfold flattenPages
    exact List.mem_flatMap.mpr ⟨p, hpm, List.mem_map.mpr ⟨w, hwm, rfl⟩⟩

theorem listMin_eq_of_mem_iff (l₁ l₂ : List Nat)
    (hiff : ∀ x, x ∈ l₁ ↔ x ∈ l₂) (h1 : l₁ ≠ []) : listMin l₁ = listMin l₂ := by
  have h2 : l₂ ≠ [] := by
    rcases List.exists_mem_of_ne_nil _ h1 with ⟨x, hx⟩
    intro hnil
    have := (hiff x).mp hx
    rw [hnil] at this
    simp at this
  have ha : listMin l₁ ≤ listMin l₂ :=
    listMin_le l₁ _ ((hiff _).mpr (listMin_mem l₂ h2))
  have hb : listMin l₂ ≤ listMin l₁ :=
    listMin_le l₂ _ ((hiff _).mp (listMin_mem l₁ h1))
  omega

theorem listMax_eq_of_mem_iff (l₁ l₂ : List Nat)
    (hiff : ∀ x, x ∈ l₁ ↔ x ∈ l₂) (h1 : l₁ ≠ []) : listMax l₁ = listMax l₂ := by
  have h2 : l₂ ≠ [] := by
    rcases List.exists_mem_of_ne_nil _ h1 with ⟨x, hx⟩
    intro hnil
    have := (hiff x).mp hx
    rw [hnil] at this
    simp at this
  have ha : listMax l₁ ≤ listMax l₂ :=
    le_listMax l₂ _ ((hiff _).mp (listMax_mem l₁ h1))
  have hb : listMax l₂ ≤ listMax l₁ :=
    le_listMax l₁ _ ((hiff _).mpr (listMax_mem l₂ h2))
  omega

theorem mkChunk_text_eq (docId filename : String) (parts : List WordPart)
    (s c : Nat) (hclean : ∀ part ∈ parts, cleanWord part.word = true) :
    splitWS (mkChunk docId filename parts s c).text =
      (windowSlice parts s).map WordPart.word := by
  show splitWS (joinWords ((windowSlice parts s).map WordPart.word)) = _
  refine splitWS_joinWords _ ?_
  intro w hw
  rcases List.mem_map.mp hw with ⟨part, hpart, hword⟩
  rw [← hword]
  exact hclean part (windowSlice_subset parts s part hpart)

theorem mkChunk_page_fields (docId filename : String) (parts : List WordPart)
    (s c : Nat) (hs : s < parts.length) :
    (mkChunk docId filename parts s c).page_start =
      listMin ((windowSlice parts s).map WordPart.page) ∧
    (mkChunk docId filename parts s c).page_end =
      listMax ((windowSlice parts s).map WordPart.page) := by
  have hne : (windowSlice parts s).map WordPart.page ≠ [] := by
    simp [windowSlice_ne_nil parts s hs]
  constructor
  · show (sortedDedup ((windowSlice parts s).map WordPart.page)).headI = _
    exact sortedDedup_headI_eq_listMin _ hne
  · show (sortedDedup ((windowSlice parts s).map WordPart.page)).getLastI = _
    exact sortedDedup_getLastI_eq_listMax _ hne

theorem create_chunks_eq (doc_pages : List Page) (filename : String)
    (generate_doc_id : String → String) (h : flattenPages doc_pages ≠ []) :
    create_chunks_with_metadata doc_pages filename generate_doc_id =
      chunkLoop (generate_doc_id filename) filename (flattenPages doc_pages) 0 0 := by
  unfold create_chunks_with_metadata
  rw [if_neg (by simpa [List.isEmpty_iff] using h)]

/-- Start index of the `k`-th sliding window. -/
def windowStart (k : Nat) : Nat := (CHUNK_SIZE_WORDS - CHUNK_OVERLAP_WORDS) * k

/-- Number of word positions shared by consecutive windows `k` and `k + 1`
over a flattened sequence of `n` words. -/
def overlapCount (n k : Nat) : Nat :=
  min (windowStart k + CHUNK_SIZE_WORDS) n - windowStart (k + 1)

theorem get_eq_of_getElem? {α : Type} (l : List α) (k : Nat) (h : k < l.length)
    (x : α) (hx : l[k]? = some x) : l.get ⟨k, h⟩ = x := by
  have h3 : some (l.get ⟨k, h⟩) = some x := by
    rw [← hx, List.get_eq_getElem, List.getElem?_eq_getElem h]
  exact Option.some.inj h3

theorem create_chunks_getElem? (generate_doc_id : String → String)
    (doc_pages : List Page) (filename : String) (k : Nat)
    (hne : flattenPages doc_pages ≠ []) :
    (create_chunks_with_metadata doc_pages filename generate_doc_id)[k]? =
      if windowStart k < (flattenPages doc_pages).length then
        some (mkChunk (generate_doc_id filename) filename (flattenPages doc_pages)
          (windowStart k) k)
      else none := by
  rw [create_chunks_eq doc_pages filename generate_doc_id hne,
    chunkLoop_getElem?]
  simp only [Nat.zero_add, windowStart]

/-! ### Claim theorems -/

/-- C1 (amended): for every document whose flattened word sequence is
non-empty and has at most `CHUNK_SIZE_WORDS - CHUNK_OVERLAP_WORDS` (250)
words — the claim's original bound `CHUNK_SIZE_WORDS` (300) fails on the
code, see `short_document_claimed_bound_refuted` — and all of whose pages
contain at least one word (the PDF reader never materializes empty pages),
`create_chunks_with_metadata` emits exactly one passage, whose text contains
all of the document's words in order and which spans the document's full
page range. -/
theorem short_document_single_passage
    (generate_doc_id : String → String) (doc_pages : List Page) (filename : String)
    (hne : flattenPages doc_pages ≠ [])
    (hlen : (flattenPages doc_pages).length ≤ CHUNK_SIZE_WORDS - CHUNK_OVERLAP_WORDS)
    (hpages : ∀ p ∈ doc_pages, splitWS p.text ≠ []) :
    ∃ c, create_chunks_with_metadata doc_pages filename generate_doc_id = [c] ∧
      splitWS c.text = (flattenPages doc_pages).map WordPart.word ∧
      c.page_start = listMin (doc_pages.map Page.page_num) ∧
      c.page_end = listMax (doc_pages.map Page.page_num) := by
  have hn : 0 < (flattenPages doc_pages).length := List.length_pos.mpr hne
  have hle300 : (flattenPages doc_pages).length ≤ CHUNK_SIZE_WORDS := by
    simp only [CHUNK_SIZE_WORDS, CHUNK_OVERLAP_WORDS] at hlen ⊢
    omega
  refine ⟨mkChunk (generate_doc_id filename) filename (flattenPages doc_pages) 0 0,
    ?_, ?_, ?_, ?_⟩
  · rw [create_chunks_eq doc_pages filename generate_doc_id hne,
      chunkLoop_pos _ _ _ _ _ hn,
      chunkLoop_neg _ _ _ _ _
        (by simp only [CHUNK_SIZE_WORDS, CHUNK_OVERLAP_WORDS] at hlen ⊢; omega)]
  · rw [mkChunk_text_eq _ _ _ _ _ (flattenPages_clean doc_pages),
      windowSlice_full _ hle300]
  · rw [(mkChunk_page_fields _ _ _ _ _ hn).1, windowSlice_full _ hle300]
    refine listMin_eq_of_mem_iff _ _ (flattenPages_page_iff doc_pages hpages) ?_
    simpa using hne
  · rw [(mkChunk_page_fields _ _ _ _ _ hn).2, windowSlice_full _ hle300]
    refine listMax_eq_of_mem_iff _ _ (flattenPages_page_iff doc_pages hpages) ?_
    simpa using hne

/-- C1 counterexample: a single-page document of 251 words has word count
at most `CHUNK_SIZE_WORDS` (300), yet `create_chunks_with_metadata` emits
two passages, not one (the loop advances by 250 and re-enters). -/
theorem short_document_claimed_bound_refuted :
    ((flattenPages [⟨1, joinWords (List.replicate 251 "w")⟩]).length ≤ CHUNK_SIZE_WORDS ∧
      flattenPages [⟨1, joinWords (List.replicate 251 "w")⟩] ≠ []) ∧
    (create_chunks_with_metadata [⟨1, joinWords (List.replicate 251 "w")⟩]
      "doc.pdf" (fun _ => "d")).length = 2 := by
  have hsplit : splitWS (joinWords (List.replicate 251 "w")) = List.replicate 251 "w" := by
    refine splitWS_joinWords _ ?_
    intro w hw
    rw [List.eq_of_mem_replicate hw]
    decide
  have hflat : flattenPages [⟨1, joinWords (List.replicate 251 "w")⟩] =
      (List.replicate 251 "w").map (fun w => ⟨w, 1⟩) := by
    unfold flattenPages
    rw [List.flatMap_cons, List.flatMap_nil, List.append_nil]
    show (splitWS (joinWords (List.replicate 251 "w"))).map _ = _
    rw [hsplit]
  have hlen : (flattenPages [⟨1, joinWords (List.replicate 251 "w")⟩]).length = 251 := by
    rw [hflat, List.length_map, List.length_replicate]
  have hne : flattenPages [⟨1, joinWords (List.replicate 251 "w")⟩] ≠ [] := by
    intro h
    rw [h] at hlen
    simp at hlen
  refine ⟨⟨by rw [hlen]; simp only [CHUNK_SIZE_WORDS]; omega, hne⟩, ?_⟩
  rw [create_chunks_eq _ _ _ hne,
    chunkLoop_pos _ _ _ _ _ (by omega),
    chunkLoop_pos _ _ _ _ _
      (by simp only [CHUNK_SIZE_WORDS, CHUNK_OVERLAP_WORDS]; omega),
    chunkLoop_neg _ _ _ _ _
      (by simp only [CHUNK_SIZE_WORDS, CHUNK_OVERLAP_WORDS]; omega)]
  rfl

/-- Witness for C1 at a concrete two-word, one-page document. -/
theorem short_document_single_passage_witness :
    (flattenPages [⟨1, "hello world"⟩] ≠ [] ∧
      (flattenPages [⟨1, "hello world"⟩]).length ≤
        CHUNK_SIZE_WORDS - CHUNK_OVERLAP_WORDS ∧
      ∀ p ∈ [(⟨1, "hello world"⟩ : Page)], splitWS p.text ≠ []) ∧
    (∃ c, create_chunks_with_metadata [⟨1, "hello world"⟩] "doc.pdf"
        (fun _ => "d") = [c] ∧
      splitWS c.text = (flattenPages [⟨1, "hello world"⟩]).map WordPart.word ∧
      c.page_start = listMin ([(⟨1, "hello world"⟩ : Page)].map Page.page_num) ∧
      c.page_end = listMax ([(⟨1, "hello world"⟩ : Page)].map Page.page_num)) :=
  ⟨⟨by decide, by decide, by decide⟩,
    short_document_single_passage (fun _ => "d") [⟨1, "hello world"⟩] "doc.pdf"
      (by decide) (by decide) (by decide)⟩

theorem chunkLoop_covers (docId filename : String) (parts : List WordPart)
    (hclean : ∀ part ∈ parts, cleanWord part.word = true) :
    ∀ (s c i : Nat) (hi : i < parts.length), s ≤ i →
      ∃ ch ∈ chunkLoop docId filename parts s c,
        (parts.get ⟨i, hi⟩).word ∈ splitWS ch.text := by
  intro s c
  induction s, c using chunkLoop.induct docId filename parts with
  | case1 s c hlt ih =>
    intro i hi hsi
    by_cases hwin : i < s + CHUNK_SIZE_WORDS
    · refine ⟨mkChunk docId filename parts s c, ?_, ?_⟩
      · rw [chunkLoop_pos _ _ _ _ _ hlt]
        simp
      · rw [mkChunk_text_eq _ _ _ _ _ hclean]
        have hj : i - s < (windowSlice parts s).length := by
          rw [windowSlice_length parts s hlt]
          omega
        refine List.mem_map.mpr ⟨(windowSlice parts s).get ⟨i - s, hj⟩, ?_, ?_⟩
        · exact List.get_mem _ _ _
        · rw [windowSlice_getElem]
          have hidx : s + (i - s) = i := by omega
          simp only [hidx]
    · have hstep : s + (CHUNK_SIZE_WORDS - CHUNK_OVERLAP_WORDS) ≤ i := by
        simp only [CHUNK_SIZE_WORDS, CHUNK_OVERLAP_WORDS] at hwin ⊢
        omega
      rcases ih i hi hstep with ⟨ch, hch, hword⟩
      refine ⟨ch, ?_, hword⟩
      rw [chunkLoop_pos _ _ _ _ _ hlt]
      exact List.mem_cons_of_mem _ hch
  | case2 s c hlt =>
    intro i hi hsi
    omega

/-- C3: every word of the flattened page sequence (all pages concatenated in
page order, intra-page word order preserved) appears in at least one passage
emitted by `create_chunks_with_metadata`; no word is skipped. -/
theorem chunking_coverage
    (generate_doc_id : String → String) (doc_pages : List Page) (filename : String) :
    ∀ part ∈ flattenPages doc_pages,
      ∃ c ∈ create_chunks_with_metadata doc_pages filename generate_doc_id,
        part.word ∈ splitWS c.text := by
  intro part hpart
  have hne : flattenPages doc_pages ≠ [] := by
    intro h
    rw [h] at hpart
    simp at hpart
  rw [create_chunks_eq doc_pages filename generate_doc_id hne]
  rcases List.mem_iff_getElem.mp hpart with ⟨i, hi, hget⟩
  rcases chunkLoop_covers (generate_doc_id filename) filename (flattenPages doc_pages)
      (flattenPages_clean doc_pages) 0 0 i hi (by omega) with ⟨ch, hch, hword⟩
  refine ⟨ch, hch, ?_⟩
  rw [List.get_eq_getElem] at hword
  rw [hget] at hword
  exact hword

/-- Witness for C3 at a concrete one-page document. -/
theorem chunking_coverage_witness :
    (⟨"world", 1⟩ : WordPart) ∈ flattenPages [⟨1, "hello world"⟩] ∧
    ∃ c ∈ create_chunks_with_metadata [⟨1, "hello world"⟩] "doc.pdf" (fun _ => "d"),
      (⟨"world", 1⟩ : WordPart).word ∈ splitWS c.text :=
  ⟨by decide,
    chunking_coverage (fun _ => "d") [⟨1, "hello world"⟩] "doc.pdf"
      ⟨"world", 1⟩ (by decide)⟩

theorem mem_create_chunks (generate_doc_id : String → String)
    (doc_pages : List Page) (filename : String) (c : Passage)
    (hc : c ∈ create_chunks_with_metadata doc_pages filename generate_doc_id) :
    ∃ k, windowStart k < (flattenPages doc_pages).length ∧
      c = mkChunk (generate_doc_id filename) filename (flattenPages doc_pages)
        (windowStart k) k := by
  have hne : flattenPages doc_pages ≠ [] := by
    intro h
    simp [create_chunks_with_metadata, h] at hc
  rcases List.mem_iff_getElem.mp hc with ⟨k, hk, hck⟩
  have hsome : (create_chunks_with_metadata doc_pages filename generate_doc_id)[k]? =
      some c := by
    rw [List.getElem?_eq_getElem hk, hck]
  rw [create_chunks_getElem? generate_doc_id doc_pages filename k hne] at hsome
  by_cases hcond : windowStart k < (flattenPages doc_pages).length
  · rw [if_pos hcond] at hsome
    exact ⟨k, hcond, (Option.some.inj hsome).symm⟩
  · rw [if_neg hcond] at hsome
    simp at hsome

/-- C5: every passage emitted by `create_chunks_with_metadata` satisfies
`page_start ≤ page_end`, and both fields lie between the minimum and the
maximum page number occurring in the source document's pages. -/
theorem passage_page_span (generate_doc_id : String → String)
    (doc_pages : List Page) (filename : String) (c : Passage)
    (hc : c ∈ create_chunks_with_metadata doc_pages filename generate_doc_id) :
    c.page_start ≤ c.page_end ∧
    listMin (doc_pages.map Page.page_num) ≤ c.page_start ∧
    c.page_end ≤ listMax (doc_pages.map Page.page_num) := by
  rcases mem_create_chunks generate_doc_id doc_pages filename c hc with ⟨k, hcond, hceq⟩
  subst hceq
  obtain ⟨hps, hpe⟩ := mkChunk_page_fields (generate_doc_id filename) filename
    (flattenPages doc_pages) (windowStart k) k hcond
  have hpne : (windowSlice (flattenPages doc_pages) (windowStart k)).map
      WordPart.page ≠ [] := by
    simp [windowSlice_ne_nil _ _ hcond]
  rw [hps, hpe]
  refine ⟨listMin_le _ _ (listMax_mem _ hpne), ?_, ?_⟩
  · rcases List.mem_map.mp (listMin_mem _ hpne) with ⟨part, hpart, hpage⟩
    have hdoc : part.page ∈ doc_pages.map Page.page_num :=
      flattenPages_page_mem doc_pages part (windowSlice_subset _ _ part hpart)
    calc listMin (doc_pages.map Page.page_num) ≤ part.page := listMin_le _ _ hdoc
      _ = _ := hpage
  · rcases List.mem_map.mp (listMax_mem _ hpne) with ⟨part, hpart, hpage⟩
    have hdoc : part.page ∈ doc_pages.map Page.page_num :=
      flattenPages_page_mem doc_pages part (windowSlice_subset _ _ part hpart)
    calc listMax ((windowSlice (flattenPages doc_pages) (windowStart k)).map
          WordPart.page) = part.page := hpage.symm
      _ ≤ listMax (doc_pages.map Page.page_num) := le_listMax _ _ hdoc

theorem mergeSort_singleton {α : Type} (le : α → α → Bool) (a : α) :
    List.mergeSort [a] le = [a] :=
  List.perm_singleton.mp (List.mergeSort_perm [a] le)

theorem sortedDedup_singleton (n : Nat) : sortedDedup [n] = [n] := by
  unfold sortedDedup
  have hd : ([n] : List Nat).dedup = [n] := by simp
  rw [hd, mergeSort_singleton]

/-- Witness for C5 at a concrete one-page document. -/
theorem passage_page_span_witness :
    mkChunk "d" "doc.pdf" [⟨"hi", 2⟩] 0 0 ∈
      create_chunks_with_metadata [⟨2, "hi"⟩] "doc.pdf" (fun _ => "d") ∧
    ((mkChunk "d" "doc.pdf" [⟨"hi", 2⟩] 0 0).page_start ≤
        (mkChunk "d" "doc.pdf" [⟨"hi", 2⟩] 0 0).page_end ∧
      listMin ([(⟨2, "hi"⟩ : Page)].map Page.page_num) ≤
        (mkChunk "d" "doc.pdf" [⟨"hi", 2⟩] 0 0).page_start ∧
      (mkChunk "d" "doc.pdf" [⟨"hi", 2⟩] 0 0).page_end ≤
        listMax ([(⟨2, "hi"⟩ : Page)].map Page.page_num)) := by
  have hmem : mkChunk "d" "doc.pdf" [⟨"hi", 2⟩] 0 0 ∈
      create_chunks_with_metadata [⟨2, "hi"⟩] "doc.pdf" (fun _ => "d") := by
    have hflat : flattenPages [⟨2, "hi"⟩] = [⟨"hi", 2⟩] := by decide
    rw [create_chunks_eq _ _ _ (by decide), hflat,
      chunkLoop_pos _ _ _ _ _ (by decide), chunkLoop_neg _ _ _ _ _ (by decide)]
    simp
  exact ⟨hmem, passage_page_span (fun _ => "d") [⟨2, "hi"⟩] "doc.pdf" _ hmem⟩

theorem windowStart_succ (k : Nat) :
    windowStart (k + 1) = windowStart k + (CHUNK_SIZE_WORDS - CHUNK_OVERLAP_WORDS) := by
  unfold windowStart
  ring

theorem drop_take_overlap {α : Type} (l : List α) (s1 s2 e1 e2 : Nat)
    (h12 : s1 ≤ s2) (h2e : s2 ≤ e1) (he12 : e1 ≤ e2) :
    ((l.drop s1).take (e1 - s1)).drop ((e1 - s1) - (e1 - s2)) =
      ((l.drop s2).take (e2 - s2)).take (e1 - s2) := by
  rw [List.drop_take, List.drop_drop, List.take_take]
  have h1 : (e1 - s1) - ((e1 - s1) - (e1 - s2)) = e1 - s2 := by omega
  have h2 : s1 + ((e1 - s1) - (e1 - s2)) = s2 := by omega
  have h3 : min (e1 - s2) (e2 - s2) = e1 - s2 := by omega
  rw [h1, h2, h3]

theorem windowSlice_overlap_eq (parts : List WordPart) (k : Nat)
    (h2 : windowStart (k + 1) < parts.length) :
    ((windowSlice parts (windowStart k)).map WordPart.word).drop
      (((windowSlice parts (windowStart k)).map WordPart.word).length -
        overlapCount parts.length k) =
    ((windowSlice parts (windowStart (k + 1))).map WordPart.word).take
      (overlapCount parts.length k) := by
  have hsucc := windowStart_succ k
  have hs1n : windowStart k < parts.length := by
    simp only [CHUNK_SIZE_WORDS, CHUNK_OVERLAP_WORDS] at hsucc
    omega
  have hcore : (windowSlice parts (windowStart k)).drop
      ((min (windowStart k + CHUNK_SIZE_WORDS) parts.length - windowStart k) -
        overlapCount parts.length k) =
      (windowSlice parts (windowStart (k + 1))).take (overlapCount parts.length k) := by
    unfold windowSlice overlapCount
    exact drop_take_overlap parts (windowStart k) (windowStart (k + 1))
      (min (windowStart k + CHUNK_SIZE_WORDS) parts.length)
      (min (windowStart (k + 1) + CHUNK_SIZE_WORDS) parts.length)
      (by simp only [windowStart, CHUNK_SIZE_WORDS, CHUNK_OVERLAP_WORDS]; omega)
      (by simp only [CHUNK_SIZE_WORDS, CHUNK_OVERLAP_WORDS] at hsucc ⊢; omega)
      (by simp only [CHUNK_SIZE_WORDS, CHUNK_OVERLAP_WORDS] at hsucc ⊢; omega)
  rw [List.length_map, windowSlice_length parts _ hs1n,
    ← List.map_drop, ← List.map_take, hcore]

/-- C4: any two consecutive passages of a document are, word for word, the
two sliding windows at starts `windowStart k` and `windowStart (k+1)`; the
number of word positions they share (`overlapCount`) — realized as the
equality of passage `k`'s last `overlapCount` words with passage `k+1`'s
first `overlapCount` words — never exceeds `CHUNK_OVERLAP_WORDS` (50), and
equals it whenever passage `k+1` is not the final passage. -/
theorem chunking_overlap_bound
    (generate_doc_id : String → String) (doc_pages : List Page) (filename : String)
    (k : Nat)
    (hk : k + 1 <
      (create_chunks_with_metadata doc_pages filename generate_doc_id).length) :
    splitWS (((create_chunks_with_metadata doc_pages filename generate_doc_id).get
        ⟨k, by omega⟩).text) =
      (windowSlice (flattenPages doc_pages) (windowStart k)).map WordPart.word ∧
    splitWS (((create_chunks_with_metadata doc_pages filename generate_doc_id).get
        ⟨k + 1, hk⟩).text) =
      (windowSlice (flattenPages doc_pages) (windowStart (k + 1))).map WordPart.word ∧
    (splitWS (((create_chunks_with_metadata doc_pages filename generate_doc_id).get
        ⟨k, by omega⟩).text)).drop
        ((splitWS (((create_chunks_with_metadata doc_pages filename
            generate_doc_id).get ⟨k, by omega⟩).text)).length -
          overlapCount (flattenPages doc_pages).length k) =
      (splitWS (((create_chunks_with_metadata doc_pages filename
          generate_doc_id).get ⟨k + 1, hk⟩).text)).take
        (overlapCount (flattenPages doc_pages).length k) ∧
    overlapCount (flattenPages doc_pages).length k ≤ CHUNK_OVERLAP_WORDS ∧
    (k + 2 < (create_chunks_with_metadata doc_pages filename generate_doc_id).length →
      overlapCount (flattenPages doc_pages).length k = CHUNK_OVERLAP_WORDS) := by
  have hne : flattenPages doc_pages ≠ [] := by
    intro h
    have hnil : create_chunks_with_metadata doc_pages filename generate_doc_id = [] := by
      simp [create_chunks_with_metadata, h]
    rw [hnil] at hk
    simp at hk
  have hval : ∀ (j : Nat)
      (hj : j < (create_chunks_with_metadata doc_pages filename
        generate_doc_id).length),
      windowStart j < (flattenPages doc_pages).length ∧
      (create_chunks_with_metadata doc_pages filename generate_doc_id).get ⟨j, hj⟩ =
        mkChunk (generate_doc_id filename) filename (flattenPages doc_pages)
          (windowStart j) j := by
    intro j hj
    have hsome : (create_chunks_with_metadata doc_pages filename
        generate_doc_id)[j]? =
        some ((create_chunks_with_metadata doc_pages filename
          generate_doc_id).get ⟨j, hj⟩) := by
      rw [List.getElem?_eq_getElem hj, List.get_eq_getElem]
    rw [create_chunks_getElem? generate_doc_id doc_pages filename j hne] at hsome
    by_cases hcond : windowStart j < (flattenPages doc_pages).length
    · refine ⟨hcond, ?_⟩
      rw [if_pos hcond] at hsome
      exact (Option.some.inj hsome).symm
    · rw [if_neg hcond] at hsome
      simp at hsome
  obtain ⟨hck, hgetk⟩ := hval k (by omega)
  obtain ⟨hck1, hgetk1⟩ := hval (k + 1) hk
  have htk : splitWS (((create_chunks_with_metadata doc_pages filename
      generate_doc_id).get ⟨k, by omega⟩).text) =
      (windowSlice (flattenPages doc_pages) (windowStart k)).map WordPart.word := by
    rw [hgetk]
    exact mkChunk_text_eq _ _ _ _ _ (flattenPages_clean doc_pages)
  have htk1 : splitWS (((create_chunks_with_metadata doc_pages filename
      generate_doc_id).get ⟨k + 1, hk⟩).text) =
      (windowSlice (flattenPages doc_pages) (windowStart (k + 1))).map
        WordPart.word := by
    rw [hgetk1]
    exact mkChunk_text_eq _ _ _ _ _ (flattenPages_clean doc_pages)
  refine ⟨htk, htk1, ?_, ?_, ?_⟩
  · rw [htk, htk1]
    exact windowSlice_overlap_eq (flattenPages doc_pages) k hck1
  · unfold overlapCount windowStart
    simp only [CHUNK_SIZE_WORDS, CHUNK_OVERLAP_WORDS]
    omega
  · intro hk2
    obtain ⟨hck2, _⟩ := hval (k + 2) hk2
    unfold windowStart at hck2
    unfold overlapCount windowStart
    simp only [CHUNK_SIZE_WORDS, CHUNK_OVERLAP_WORDS] at hck2 ⊢
    omega

/-- Witness for C4: a 251-word single-page document yields two passages, and
their overlap is at most `CHUNK_OVERLAP_WORDS`. -/
theorem chunking_overlap_bound_witness :
    0 + 1 < (create_chunks_with_metadata [⟨1, joinWords (List.replicate 251 "w")⟩]
      "doc.pdf" (fun _ => "d")).length ∧
    overlapCount (flattenPages [⟨1, joinWords (List.replicate 251 "w")⟩]).length 0 ≤
      CHUNK_OVERLAP_WORDS := by
  have hsplit : splitWS (joinWords (List.replicate 251 "w")) =
      List.replicate 251 "w" := by
    refine splitWS_joinWords _ ?_
    intro w hw
    rw [List.eq_of_mem_replicate hw]
    decide
  have hflat : flattenPages [⟨1, joinWords (List.replicate 251 "w")⟩] =
      (List.replicate 251 "w").map (fun w => ⟨w, 1⟩) := by
    unfold flattenPages
    rw [List.flatMap_cons, List.flatMap_nil, List.append_nil]
    show (splitWS (joinWords (List.replicate 251 "w"))).map _ = _
    rw [hsplit]
  have hlen : (flattenPages [⟨1, joinWords (List.replicate 251 "w")⟩]).length = 251 := by
    rw [hflat, List.length_map, List.length_replicate]
  have hne : flattenPages [⟨1, joinWords (List.replicate 251 "w")⟩] ≠ [] := by
    intro h
    rw [h] at hlen
    simp at hlen
  have hchunks : (create_chunks_with_metadata [⟨1, joinWords (List.replicate 251 "w")⟩]
      "doc.pdf" (fun _ => "d")).length = 2 := by
    rw [create_chunks_eq _ _ _ hne,
      chunkLoop_pos _ _ _ _ _ (by omega),
      chunkLoop_pos _ _ _ _ _
        (by simp only [CHUNK_SIZE_WORDS, CHUNK_OVERLAP_WORDS]; omega),
      chunkLoop_neg _ _ _ _ _
        (by simp only [CHUNK_SIZE_WORDS, CHUNK_OVERLAP_WORDS]; omega)]
    rfl
  have hk : 0 + 1 < (create_chunks_with_metadata
      [⟨1, joinWords (List.replicate 251 "w")⟩] "doc.pdf" (fun _ => "d")).length := by
    omega
  exact ⟨hk, (chunking_overlap_bound (fun _ => "d")
    [⟨1, joinWords (List.replicate 251 "w")⟩] "doc.pdf" 0 hk).2.2.2.1⟩

theorem chunkTextLoop_pos (words : List String) (s : Nat) (h : s < words.length) :
    chunkTextLoop words s =
      joinWords ((words.drop s).take CHUNK_SIZE_WORDS) ::
        chunkTextLoop words (s + (CHUNK_SIZE_WORDS - CHUNK_OVERLAP_WORDS)) := by
  rw [chunkTextLoop]
  simp [h]

theorem chunkTextLoop_neg (words : List String) (s : Nat) (h : ¬ s < words.length) :
    chunkTextLoop words s = [] := by
  rw [chunkTextLoop]
  simp [h]

theorem mkChunk_text (docId filename : String) (parts : List WordPart)
    (s c : Nat) : (mkChunk docId filename parts s c).text =
      joinWords ((windowSlice parts s).map WordPart.word) := rfl

/-- The two loops walk the same windows: the metadata-free chunk texts are
exactly the `text` fields of the metadata chunks. -/
theorem chunkTextLoop_eq_map (docId filename : String) (parts : List WordPart) :
    ∀ (s c : Nat),
      chunkTextLoop (parts.map WordPart.word) s =
        (chunkLoop docId filename parts s c).map Passage.text := by
  intro s c
  induction s, c using chunkLoop.induct docId filename parts with
  | case1 s c hlt ih =>
    rw [chunkLoop_pos _ _ _ _ _ hlt,
      chunkTextLoop_pos _ _ (by simpa using hlt), List.map_cons, ih]
    congr 1
    rw [mkChunk_text]
    congr 1
    unfold windowSlice
    rw [List.map_take, List.map_drop, List.take_eq_take]
    simp only [List.length_drop, List.length_map]
    omega
  | case2 s c hlt =>
    rw [chunkLoop_neg _ _ _ _ _ hlt, chunkTextLoop_neg _ _ (by simpa using hlt)]
    rfl

/-- C10 (amended): `chunk_text` at its default parameters agrees with the
`text` fields of `create_chunks_with_metadata` on a single page containing
the text — provided the text has more than `CHUNK_SIZE_WORDS` words, or is
non-empty with at most `CHUNK_SIZE_WORDS - CHUNK_OVERLAP_WORDS` words and is
whitespace-normalized.  Unrestricted, the claim is false, see
`chunk_text_metadata_chunker_disagree`: `chunk_text` short-circuits texts of
at most `CHUNK_SIZE_WORDS` words to one raw-text chunk, while the metadata
chunker keeps sliding (two chunks for 251..300 words) and rejoins words with
single spaces (and emits nothing for an empty word list). -/
theorem chunk_text_refines_metadata_chunker
    (generate_doc_id : String → String) (filename text : String) (page_num : Nat)
    (h : CHUNK_SIZE_WORDS < (splitWS text).length ∨
      (splitWS text ≠ [] ∧
        (splitWS text).length ≤ CHUNK_SIZE_WORDS - CHUNK_OVERLAP_WORDS ∧
        text = joinWords (splitWS text))) :
    chunk_text text =
      (create_chunks_with_metadata [⟨page_num, text⟩] filename
        generate_doc_id).map Passage.text := by
  have hflat : flattenPages [⟨page_num, text⟩] =
      (splitWS text).map (fun w => ⟨w, page_num⟩) := by
    unfold flattenPages
    rw [List.flatMap_cons, List.flatMap_nil, List.append_nil]
  have hwords : (flattenPages [⟨page_num, text⟩]).map WordPart.word =
      splitWS text := by
    rw [hflat, List.map_map]
    have hcomp : (WordPart.word ∘ fun w => (⟨w, page_num⟩ : WordPart)) = id := rfl
    rw [hcomp, List.map_id]
  have hplen : (flattenPages [⟨page_num, text⟩]).length = (splitWS text).length := by
    rw [hflat, List.length_map]
  rcases h with hlong | ⟨hne, hshort, hnorm⟩
  · have hpne : flattenPages [⟨page_num, text⟩] ≠ [] := by
      intro hx
      rw [hx] at hplen
      simp at hplen
      omega
    unfold chunk_text
    rw [if_neg (by omega)]
    rw [create_chunks_eq _ _ _ hpne, ← hwords]
    exact chunkTextLoop_eq_map _ _ _ 0 0
  · have hpne : flattenPages [⟨page_num, text⟩] ≠ [] := by
      rw [hflat]
      simpa using hne
    have hlen0 : 0 < (flattenPages [⟨page_num, text⟩]).length := by
      rw [hplen]
      exact List.length_pos.mpr hne
    unfold chunk_text
    rw [if_pos (by simp only [CHUNK_SIZE_WORDS, CHUNK_OVERLAP_WORDS] at hshort ⊢; omega)]
    rw [create_chunks_eq _ _ _ hpne,
      chunkLoop_pos _ _ _ _ _ hlen0,
      chunkLoop_neg _ _ _ _ _
        (by rw [hplen] at hlen0 ⊢
            simp only [CHUNK_SIZE_WORDS, CHUNK_OVERLAP_WORDS] at hshort ⊢
            omega),
      List.map_cons, List.map_nil]
    congr 1
    rw [mkChunk_text,
      windowSlice_full _
        (by rw [hplen]
            simp only [CHUNK_SIZE_WORDS, CHUNK_OVERLAP_WORDS] at hshort ⊢
            omega),
      hwords]
    exact hnorm

/-- C10 counterexample: on the empty text `chunk_text` yields one chunk (the
raw text) while `create_chunks_with_metadata` yields none; and on a
normalized 251-word text `chunk_text` yields one chunk while the metadata
chunker yields two. -/
theorem chunk_text_metadata_chunker_disagree :
    chunk_text "" ≠
      (create_chunks_with_metadata [⟨1, ""⟩] "doc.pdf" (fun _ => "d")).map
        Passage.text ∧
    (chunk_text (joinWords (List.replicate 251 "w"))).length = 1 ∧
    ((create_chunks_with_metadata [⟨1, joinWords (List.replicate 251 "w")⟩]
      "doc.pdf" (fun _ => "d")).map Passage.text).length = 2 := by
  have hsplit : splitWS (joinWords (List.replicate 251 "w")) =
      List.replicate 251 "w" := by
    refine splitWS_joinWords _ ?_
    intro w hw
    rw [List.eq_of_mem_replicate hw]
    decide
  refine ⟨by decide, ?_, ?_⟩
  · unfold chunk_text
    rw [if_pos (by rw [hsplit, List.length_replicate]
                   simp only [CHUNK_SIZE_WORDS]
                   omega)]
    rfl
  · have hflat : flattenPages [⟨1, joinWords (List.replicate 251 "w")⟩] =
        (List.replicate 251 "w").map (fun w => ⟨w, 1⟩) := by
      unfold flattenPages
      rw [List.flatMap_cons, List.flatMap_nil, List.append_nil]
      show (splitWS (joinWords (List.replicate 251 "w"))).map _ = _
      rw [hsplit]
    have hlen : (flattenPages [⟨1, joinWords (List.replicate 251 "w")⟩]).length =
        251 := by
      rw [hflat, List.length_map, List.length_replicate]
    have hne : flattenPages [⟨1, joinWords (List.replicate 251 "w")⟩] ≠ [] := by
      intro hx
      rw [hx] at hlen
      simp at hlen
    rw [create_chunks_eq _ _ _ hne,
      chunkLoop_pos _ _ _ _ _ (by omega),
      chunkLoop_pos _ _ _ _ _
        (by simp only [CHUNK_SIZE_WORDS, CHUNK_OVERLAP_WORDS]; omega),
      chunkLoop_neg _ _ _ _ _
        (by simp only [CHUNK_SIZE_WORDS, CHUNK_OVERLAP_WORDS]; omega)]
    rfl

/-- Witness for C10 at a concrete short normalized text. -/
theorem chunk_text_refines_metadata_chunker_witness :
    (CHUNK_SIZE_WORDS < (splitWS "hello world").length ∨
      (splitWS "hello world" ≠ [] ∧
        (splitWS "hello world").length ≤ CHUNK_SIZE_WORDS - CHUNK_OVERLAP_WORDS ∧
        "hello world" = joinWords (splitWS "hello world"))) ∧
    chunk_text "hello world" =
      (create_chunks_with_metadata [⟨1, "hello world"⟩] "doc.pdf"
        (fun _ => "d")).map Passage.text :=
  ⟨Or.inr ⟨by decide, by decide, by decide⟩,
    chunk_text_refines_metadata_chunker (fun _ => "d") "doc.pdf" "hello world" 1
      (Or.inr ⟨by decide, by decide, by decide⟩)⟩

/-! ### Vector index and storage (src/vector_index.py, src/storage.py)

Embedding vectors are modelled over the rationals; the external
sentence-transformers model is an arbitrary per-text function
`embed : String → Vec`.  The spec's ordering contract for the provider
("embedding a batch of N texts must return N vectors in the same order")
makes batch embedding the map of that function. -/

/-- An embedding vector. -/
abbrev Vec : Type := List Rat

/-- Batch embedding, `embed_texts` of `src/embedder.py`: the external model
applied text by text, order preserved (spec §5 ordering guarantee). -/
def embed_texts {α : Type} (embed : String → α) (texts : List String) : List α :=
  texts.map embed

/-- `build_index(chunks)` from `src/vector_index.py`: fails on an empty
chunk list, otherwise embeds every chunk's `text` in order, adds the
embeddings to a fresh flat index (modelled as the list of vectors in
insertion order) and returns the index together with the chunks unchanged.
The progress callback only reports progress and is omitted. -/
def build_index {α : Type} (chunks : List Passage) (embed : String → α) :
    Except String (List α × List Passage) :=
  if chunks.isEmpty then Except.error "No chunks to index!"
  else
    let texts := chunks.map Passage.text
    let embeddings := embed_texts embed texts
    Except.ok (embeddings, chunks)

/-- The persisted state of `src/storage.py`: the FAISS index file and the
metadata JSON file, each possibly absent. -/
structure Storage where
  faissFile : Option (List Vec)
  metadataFile : Option (List Passage)

/-- `index_exists()` from `src/storage.py`: both files are present. -/
def index_exists (st : Storage) : Bool :=
  st.faissFile.isSome && st.metadataFile.isSome

/-- `load_faiss_index()` from `src/storage.py`. -/
def load_faiss_index (st : Storage) : Option (List Vec) :=
  st.faissFile

/-- `load_metadata()` from `src/storage.py`. -/
def load_metadata (st : Storage) : Option (List Passage) :=
  st.metadataFile

/-- `save_index_and_metadata(index, metadata)` from `src/vector_index.py`:
writes both files. -/
def save_index_and_metadata (st : Storage) (index : List Vec)
    (metadata : List Passage) : Storage :=
  { faissFile := some index, metadataFile := some metadata }

/-- The build-then-save flow of `pages/1_Upload_and_Index.py`: `build_index`
followed by `save_index_and_metadata`; an exception raised by `build_index`
propagates (the page's `try` block) and the save never runs, leaving the
persisted files unchanged. -/
def buildAndSave (st : Storage) (chunks : List Passage) (embed : String → Vec) :
    Storage × Except String Unit :=
  match build_index chunks embed with
  | Except.error e => (st, Except.error e)
  | Except.ok (vecs, meta) => (save_index_and_metadata st vecs meta, Except.ok ())

/-- C2: for every non-empty passage list and every (order-preserving,
per-text) embedding function, `build_index` succeeds, returns the passage
list itself as metadata, and the i-th vector stored in the index is the
embedding of `metadata[i].text`. -/
theorem build_index_alignment {α : Type} (embed : String → α)
    (chunks : List Passage) (h : chunks ≠ []) :
    ∃ (vecs : List α) (meta : List Passage),
      build_index chunks embed = Except.ok (vecs, meta) ∧
      meta = chunks ∧
      vecs.length = meta.length ∧
      ∀ (i : Nat) (hv : i < vecs.length) (hm : i < meta.length),
        vecs.get ⟨i, hv⟩ = embed (meta.get ⟨i, hm⟩).text := by
  refine ⟨chunks.map (fun c => embed c.text), chunks, ?_, rfl, by simp, ?_⟩
  · unfold build_index embed_texts
    rw [if_neg (by simpa [List.isEmpty_iff] using h)]
    show Except.ok (chunks.map Passage.text |>.map embed, chunks) = _
    rw [List.map_map]
    rfl
  · intro i hv hm
    simp

/-- Witness for C2 at a concrete one-passage corpus. -/
theorem build_index_alignment_witness :
    ([(⟨"d", "f", "d_0", 1, 1, "hi"⟩ : Passage)] ≠ []) ∧
    ∃ (vecs : List String) (meta : List Passage),
      build_index [(⟨"d", "f", "d_0", 1, 1, "hi"⟩ : Passage)] (fun s => s) =
        Except.ok (vecs, meta) ∧
      meta = [(⟨"d", "f", "d_0", 1, 1, "hi"⟩ : Passage)] ∧
      vecs.length = meta.length ∧
      ∀ (i : Nat) (hv : i < vecs.length) (hm : i < meta.length),
        vecs.get ⟨i, hv⟩ = (fun s => s) (meta.get ⟨i, hm⟩).text :=
  ⟨by decide,
    build_index_alignment (fun s => s) [⟨"d", "f", "d_0", 1, 1, "hi"⟩] (by decide)⟩

/-- C8: building from an empty passage list fails with the empty-corpus
error for every embedding function (so no embedding is consulted), and the
build-then-save flow leaves any previously persisted files unchanged. -/
theorem build_index_empty_corpus (st : Storage) (embed : String → Vec) :
    build_index ([] : List Passage) embed = Except.error "No chunks to index!" ∧
    buildAndSave st [] embed = (st, Except.error "No chunks to index!") := by
  constructor
  · rfl
  · rfl

/-! ### Query-time search (src/search.py)

The FAISS `IndexFlatIP.search` is an external collaborator; it is modelled
by its contract (spec §4.2): exact inner-product scores against every stored
vector, results sorted by descending score, the requested number of pairs
returned (the caller passes `min(k, ntotal)`, so the `-1` padding FAISS uses
when asked for more than `ntotal` never occurs).  Scores are rationals,
indices are integers as in FAISS (−1 marks an empty slot). -/

/-- Inner product of two vectors (`numpy` dot under the hood of FAISS). -/
def dot (q v : Vec) : Rat :=
  ((List.zip q v).map (fun p => p.1 * p.2)).foldl (fun a b => a + b) 0

/-- Comparison used by the modelled FAISS search: higher score first;
`mergeSort` is stable, so ties keep insertion (position) order. -/
def scoreLe (a b : Rat × Int) : Bool :=
  decide (b.1 ≤ a.1)

/-- Modelled FAISS `IndexFlatIP.search`: score every stored vector against
the query, sort by descending score, return the first `k` (score, index)
pairs. -/
def faissSearch (vecs : List Vec) (q : Vec) (k : Nat) : List (Rat × Int) :=
  (((vecs.enum.map (fun p => (dot q p.2, (p.1 : Int)))).mergeSort scoreLe)).take k

/-- A search result: `chunk_meta.copy()` with the `similarity_score` key
added. -/
structure SearchResult where
  meta : Passage
  similarity_score : Rat
deriving DecidableEq, Repr

/-- The result-building loop of `search`: skip `-1` slots, otherwise look up
`metadata[idx]` (an out-of-range index would raise in Python, modelled as
`Except.error`) and attach the score. -/
def buildResults (metadata : List Passage) :
    List (Rat × Int) → Except String (List SearchResult)
  | [] => Except.ok []
  | (s, idx) :: rest =>
    if idx == -1 then buildResults metadata rest
    else
      match metadata[idx.toNat]? with
      | none => Except.error "IndexError: list index out of range"
      | some m => (buildResults metadata rest).map
          (fun rs => ⟨m, s⟩ :: rs)

/-- `search(query, k)` from `src/search.py`.  Returns `ok none` (Python
`None`) when no index exists, otherwise embeds the query, asks the index for
the top `min(k, ntotal)` pairs and resolves them against the metadata. -/
def search (st : Storage) (embedQ : String → Vec) (query : String) (k : Nat) :
    Except String (Option (List SearchResult)) :=
  if index_exists st = false then Except.ok none
  else
    match load_faiss_index st, load_metadata st with
    | some index, some metadata =>
      let query_vector := embedQ query
      let pairs := faissSearch index query_vector (min k index.length)
      (buildResults metadata pairs).map (fun rs => some rs)
    | _, _ => Except.ok none

theorem scoreLe_trans (a b c : Rat × Int) (hab : scoreLe a b = true)
    (hbc : scoreLe b c = true) : scoreLe a c = true := by
  simp only [scoreLe, decide_eq_true_eq] at hab hbc ⊢
  exact le_trans hbc hab

theorem scoreLe_total (a b : Rat × Int) : (scoreLe a b || scoreLe b a) = true := by
  simp only [scoreLe, Bool.or_eq_true, decide_eq_true_eq]
  exact le_total b.1 a.1

theorem faissSearch_length (vecs : List Vec) (q : Vec) (k : Nat) :
    (faissSearch vecs q k).length = min k vecs.length := by
  unfold faissSearch
  rw [List.length_take, List.length_mergeSort, List.length_map, List.enum_length]

theorem faissSearch_mem (vecs : List Vec) (q : Vec) (k : Nat) :
    ∀ p ∈ faissSearch vecs q k, ∃ i : Nat, p.2 = (i : Int) ∧ i < vecs.length := by
  intro p hp
  unfold faissSearch at hp
  have hp2 := List.mem_mergeSort.mp (List.mem_of_mem_take hp)
  rcases List.mem_map.mp hp2 with ⟨⟨i, v⟩, hiv, hpv⟩
  have hi := (List.mem_enum hiv).1
  exact ⟨i, by rw [← hpv], hi⟩

theorem faissSearch_sorted (vecs : List Vec) (q : Vec) (k : Nat) :
    List.Pairwise (fun a b : Rat × Int => b.1 ≤ a.1) (faissSearch vecs q k) := by
  have hs := @List.sorted_mergeSort (Rat × Int) scoreLe
    (fun a b c hab hbc => scoreLe_trans a b c hab hbc)
    scoreLe_total
    (vecs.enum.map (fun p => (dot q p.2, (p.1 : Int))))
  have hsub : (faissSearch vecs q k).Sublist
      ((vecs.enum.map (fun p => (dot q p.2, (p.1 : Int)))).mergeSort scoreLe) :=
    List.take_sublist _ _
  refine (List.Pairwise.sublist hsub hs).imp ?_
  intro a b hab
  simpa [scoreLe] using hab

theorem buildResults_ok (metadata : List Passage) (dflt : Passage) :
    ∀ (pairs : List (Rat × Int)),
      (∀ p ∈ pairs, ∃ i : Nat, p.2 = (i : Int) ∧ i < metadata.length) →
      buildResults metadata pairs =
        Except.ok (pairs.map
          (fun p => (⟨metadata.getD p.2.toNat dflt, p.1⟩ : SearchResult))) := by
  intro pairs
  induction pairs with
  | nil => intro _; rfl
  | cons p rest ih =>
    intro hval
    rcases hval p (by simp) with ⟨i, hpi, hilen⟩
    have hrest := ih (fun x hx => hval x (by simp [hx]))
    cases p with
    | mk s idx =>
      simp only at hpi
      subst hpi
      have hne1 : ((i : Int) == (-1 : Int)) = false := by
        simp only [beq_eq_false_iff_ne, ne_eq]
        omega
      have hget : metadata[((i : Int)).toNat]? = some metadata[i] := by
        rw [Int.toNat_natCast]
        exact List.getElem?_eq_getElem hilen
      have hgetD : metadata.getD ((i : Int)).toNat dflt = metadata[i] := by
        rw [Int.toNat_natCast]
        exact List.getD_eq_getElem metadata dflt hilen
      simp only [buildResults, hne1, Bool.false_eq_true, if_false, hget, hrest,
        Except.map, List.map_cons, hgetD]

/-- C6: with both files present and the persisted pair consistent (equal
lengths, as a successful build guarantees), `search(query, k)` with positive
`k` succeeds and returns exactly `min k n` results — the top-ranked pairs in
the index's score-descending order, each resolved to its metadata record
with the score attached; in particular `k > n` yields `n` results, not an
error. -/
theorem search_k_clamping (st : Storage) (embedQ : String → Vec)
    (q : String) (k : Nat) (index : List Vec) (metadata : List Passage)
    (hf : st.faissFile = some index) (hm : st.metadataFile = some metadata)
    (hlen : metadata.length = index.length) (hk : 0 < k) :
    ∃ rs : List SearchResult,
      search st embedQ q k = Except.ok (some rs) ∧
      rs = (faissSearch index (embedQ q) (min k index.length)).map
        (fun p => (⟨metadata.getD p.2.toNat default, p.1⟩ : SearchResult)) ∧
      rs.length = min k index.length ∧
      List.Pairwise (fun a b => b.similarity_score ≤ a.similarity_score) rs := by
  have hval : ∀ p ∈ faissSearch index (embedQ q) (min k index.length),
      ∃ i : Nat, p.2 = (i : Int) ∧ i < metadata.length := by
    intro p hp
    rcases faissSearch_mem index (embedQ q) _ p hp with ⟨i, h1, h2⟩
    exact ⟨i, h1, by omega⟩
  have hbr := buildResults_ok metadata default _ hval
  have hsearch : search st embedQ q k =
      Except.ok (some ((faissSearch index (embedQ q) (min k index.length)).map
        (fun p => (⟨metadata.getD p.2.toNat default, p.1⟩ : SearchResult)))) := by
    unfold search
    have hex : index_exists st = true := by
      simp [index_exists, hf, hm]
    rw [hex]
    rw [if_neg (by simp)]
    unfold load_faiss_index load_metadata
    rw [hf, hm]
    show (buildResults metadata
        (faissSearch index (embedQ q) (min k index.length))).map
        (fun rs => some rs) = _
    rw [hbr]
    rfl
  refine ⟨_, hsearch, rfl, ?_, ?_⟩
  · rw [List.length_map, faissSearch_length, min_assoc, min_self]
  · rw [List.pairwise_map]
    exact List.Pairwise.imp (fun hab => hab)
      (faissSearch_sorted index (embedQ q) (min k index.length))

/-- Witness for C6: one stored vector, `k = 5` requested. -/
theorem search_k_clamping_witness :
    ((⟨some [[(1 : Rat)]], some [⟨"d", "f", "c", 1, 1, "t"⟩]⟩ : Storage).faissFile =
        some [[(1 : Rat)]] ∧
      (⟨some [[(1 : Rat)]], some [⟨"d", "f", "c", 1, 1, "t"⟩]⟩ : Storage).metadataFile =
        some [⟨"d", "f", "c", 1, 1, "t"⟩] ∧
      ([(⟨"d", "f", "c", 1, 1, "t"⟩ : Passage)]).length =
        ([[(1 : Rat)]] : List Vec).length ∧
      0 < 5) ∧
    ∃ rs : List SearchResult,
      search ⟨some [[(1 : Rat)]], some [⟨"d", "f", "c", 1, 1, "t"⟩]⟩
        (fun _ => [(1 : Rat)]) "x" 5 = Except.ok (some rs) ∧
      rs = (faissSearch [[(1 : Rat)]] ((fun _ => [(1 : Rat)]) "x")
          (min 5 ([[(1 : Rat)]] : List Vec).length)).map
        (fun p => (⟨([(⟨"d", "f", "c", 1, 1, "t"⟩ : Passage)]).getD p.2.toNat default,
          p.1⟩ : SearchResult)) ∧
      rs.length = min 5 ([[(1 : Rat)]] : List Vec).length ∧
      List.Pairwise (fun a b => b.similarity_score ≤ a.similarity_score) rs :=
  ⟨⟨rfl, rfl, rfl, by decide⟩,
    search_k_clamping ⟨some [[(1 : Rat)]], some [⟨"d", "f", "c", 1, 1, "t"⟩]⟩
      (fun _ => [(1 : Rat)]) "x" 5 [[(1 : Rat)]] [⟨"d", "f", "c", 1, 1, "t"⟩]
      rfl rfl rfl (by decide)⟩

/-- C7: when the index file or the metadata file is absent, `search` returns
the distinguished "no index" signal (Python `None`, here `ok none`) — not an
exception and not an empty result list. -/
theorem search_no_index_signal (st : Storage) (embedQ : String → Vec)
    (q : String) (k : Nat)
    (h : st.faissFile = none ∨ st.metadataFile = none) :
    search st embedQ q k = Except.ok none := by
  unfold search
  have hex : index_exists st = false := by
    rcases h with h | h <;> simp [index_exists, h]
  rw [hex]
  simp

/-- Witness for C7 at the empty storage. -/
theorem search_no_index_signal_witness :
    ((⟨none, none⟩ : Storage).faissFile = none ∨
      (⟨none, none⟩ : Storage).metadataFile = none) ∧
    search ⟨none, none⟩ (fun _ => []) "query" 5 = Except.ok none :=
  ⟨Or.inl rfl, search_no_index_signal ⟨none, none⟩ (fun _ => []) "query" 5 (Or.inl rfl)⟩

/-! ### Keyword highlighting (src/search.py) -/

/-- Model of Python `str.lower()` (character-wise, as in ASCII text). -/
def strLower (s : String) : String :=
  String.mk (s.data.map Char.toLower)

/-- Model of Python `s.strip(chars)`: remove leading and trailing characters
drawn from `cs`. -/
def pyStrip (s : String) (cs : List Char) : String :=
  String.mk (((s.data.dropWhile (fun c => cs.contains c)).reverse.dropWhile
    (fun c => cs.contains c)).reverse)

/-- The punctuation characters stripped by `highlight_keywords`:
the Python literal `".,!?;:\"'()[]"`. -/
def stripPunctChars : List Char :=
  ['.', ',', '!', '?', ';', ':', '\x22', '\x27', '(', ')', '[', ']']

/-- `highlight_keywords(text, query, highlight_start, highlight_end)` from
`src/search.py`: lowercased query words longer than two characters; each
whitespace-separated word of `text` whose lowercased, punctuation-stripped
form is among them is wrapped in the markers; the words are re-joined with
single spaces (the original text is returned untouched when no query word
qualifies). -/
def highlight_keywords (text query highlight_start highlight_end : String) :
    String :=
  let query_words := ((splitWS query).filter (fun w => 2 < w.length)).map strLower
  if query_words.isEmpty then text
  else
    joinWords ((splitWS text).map (fun word =>
      let word_lower := pyStrip (strLower word) stripPunctChars
      if query_words.contains word_lower then
        highlight_start ++ word ++ highlight_end
      else word))

/-- The claim's matching condition, written from the spec's words: some
whitespace-separated query word of length greater than 2 whose lowercase
form equals the result word's lowercased, punctuation-stripped form. -/
def claimQueryMatch (query w : String) : Bool :=
  (splitWS query).any (fun qw => decide (2 < qw.length) &&
    (pyStrip (strLower w) stripPunctChars == strLower qw))

theorem contains_eq_claimQueryMatch (query w : String) :
    ((((splitWS query).filter (fun x => 2 < x.length)).map strLower).contains
      (pyStrip (strLower w) stripPunctChars)) = claimQueryMatch query w := by
  rw [Bool.eq_iff_iff]
  unfold claimQueryMatch
  rw [List.elem_iff, List.any_eq_true]
  constructor
  · intro hmem
    rcases List.mem_map.mp hmem with ⟨x, hxf, hxl⟩
    rcases List.mem_filter.mp hxf with ⟨hxq, hxlen⟩
    refine ⟨x, hxq, ?_⟩
    rw [Bool.and_eq_true, beq_iff_eq]
    exact ⟨hxlen, hxl.symm⟩
  · intro ⟨qw, hqw, hcond⟩
    rw [Bool.and_eq_true, beq_iff_eq] at hcond
    exact List.mem_map.mpr ⟨qw, List.mem_filter.mpr ⟨hqw, hcond.1⟩, hcond.2.symm⟩

/-- C9: `highlight_keywords` wraps with the caller-supplied markers exactly
those whitespace-separated words of the result text whose lowercased form,
after stripping surrounding punctuation, equals some lowercased query word
of length greater than 2; word order and original casing are preserved and
every non-matching word passes through unchanged.  Stated at the word level
(the code re-joins words with single spaces); whitespace-free markers keep
a wrapped word a single word. -/
theorem highlight_keywords_spec (text query hs he : String)
    (hhs : ∀ ch ∈ hs.data, isSpaceChar ch = false)
    (hhe : ∀ ch ∈ he.data, isSpaceChar ch = false) :
    splitWS (highlight_keywords text query hs he) =
      (splitWS text).map (fun w =>
        if claimQueryMatch query w then hs ++ w ++ he else w) := by
  unfold highlight_keywords
  by_cases hq : (((splitWS query).filter (fun w => 2 < w.length)).map
      strLower).isEmpty = true
  · rw [if_pos hq]
    rw [List.isEmpty_iff, List.map_eq_nil_iff, List.filter_eq_nil_iff] at hq
    have hnone : ∀ w, claimQueryMatch query w = false := by
      intro w
      unfold claimQueryMatch
      rw [List.any_eq_false]
      intro qw hqw
      have := hq qw hqw
      simp only [Bool.and_eq_true, decide_eq_true_eq, not_and]
      intro hlen
      exact absurd (by simpa using hlen) this
    have hmap : (splitWS text).map (fun w =>
        if claimQueryMatch query w then hs ++ w ++ he else w) =
        (splitWS text).map (fun w => w) :=
      List.map_congr_left (fun w _ => by rw [hnone w]; simp)
    rw [hmap, List.map_id' (splitWS text)]
  · rw [if_neg hq]
    have hclean : ∀ x ∈ (splitWS text).map (fun word =>
        if (((splitWS query).filter (fun w => 2 < w.length)).map
            strLower).contains (pyStrip (strLower word) stripPunctChars)
        then hs ++ word ++ he else word), cleanWord x = true := by
      intro x hx
      rcases List.mem_map.mp hx with ⟨w, hw, hxw⟩
      have hwclean := (cleanWord_iff w).mp (splitWS_clean text w hw)
      subst hxw
      by_cases hcond : ((((splitWS query).filter (fun w => 2 < w.length)).map
          strLower).contains (pyStrip (strLower w) stripPunctChars)) = true
      · rw [if_pos hcond, cleanWord_iff]
        constructor
        · rw [String.data_append, String.data_append]
          simp [hwclean.1]
        · intro c hc
          rw [String.data_append, String.data_append] at hc
          rcases List.mem_append.mp hc with hc2 | hc2
          · rcases List.mem_append.mp hc2 with hc3 | hc3
            · exact hhs c hc3
            · exact hwclean.2 c hc3
          · exact hhe c hc2
      · rw [if_neg hcond]
        exact (cleanWord_iff w).mpr hwclean
    rw [splitWS_joinWords _ hclean]
    refine List.map_congr_left ?_
    intro w hw
    rw [contains_eq_claimQueryMatch]

/-- Witness for C9 at the spec's own example. -/
theorem highlight_keywords_spec_witness :
    ((∀ ch ∈ ("**" : String).data, isSpaceChar ch = false) ∧
      (∀ ch ∈ ("**" : String).data, isSpaceChar ch = false)) ∧
    splitWS (highlight_keywords "The impacts of Climate change are significant."
        "climate change impacts" "**" "**") =
      (splitWS "The impacts of Climate change are significant.").map (fun w =>
        if claimQueryMatch "climate change impacts" w then "**" ++ w ++ "**"
        else w) :=
  ⟨⟨by decide, by decide⟩,
    highlight_keywords_spec "The impacts of Climate change are significant."
      "climate change impacts" "**" "**" (by decide) (by decide)⟩
